import Mathlib

/-!
Verification development for the break_ecc repository.

The repository synthesizes reversible modular-arithmetic circuits in the
Fourier (phase) domain, composes them into a mixed classical/quantum
elliptic-curve point addition, chains that into a controlled scalar
multiplication, and classically recovers a discrete log from a measurement
histogram.

The embedding below works on two levels, both translated directly from the
source:

1. An operation-list level (`COp`): each arithmetic primitive of
   `src/general/arithmetic.py` is rendered as the list of gates it appends,
   namely a Fourier transform on the output register, a sequence of
   (multi-)controlled phase-addition gates (one per `cc_phase_add` call,
   carrying its control qubits and its signed integer constant), and the
   inverse Fourier transform.  This level settles structural claims: which
   registers the gates touch, and how the inverse form relates to the
   forward form.

2. A value level: on computational-basis states the Fourier-sandwiched
   block of phase additions acts on the output register as addition of the
   accumulated signed constant modulo 2^width (the standard semantics of a
   phase-domain adder), while control registers are only read.  Each
   primitive therefore becomes a function on register values; the summed
   constants (`squareSum`, `mulSum`, `scalSum`, `subSum`) mirror the
   source loops term by term, with each per-term constant pre-reduced
   modulo N exactly as in the source.  The point-addition stages of
   `src/general/ecc.py` and the classical solver of
   `src/postprocessing.py` / `src/verify_qday.py` are embedded on top of
   this level.
-/

namespace BreakEcc

/-- The i-th bit of a natural number, as 0 or 1 (control qubit value). -/
def bitv (x i : ℕ) : ℕ := if Nat.testBit x i then 1 else 0

/-- Sign selected by the `inverse` flag of each primitive:
`sign = 1` forward, `sign = -1` for the inverse form. -/
def sgn (inverse : Bool) : ℤ := if inverse then -1 else 1

/-- Basis-state effect of one Fourier-sandwiched phase-addition block on the
output register of width `n`, where `M = 2^n`: the signed accumulated
constant `s` is added to the register value modulo `M`. -/
def padd (M : ℕ) (v : ℕ) (s : ℤ) : ℕ := (((v : ℤ) + s) % (M : ℤ)).toNat

/-- Accumulated constant of `ModularArithmetic.modular_square`
(src/general/arithmetic.py, lines 44-49): for each source bit `i` the
pre-reduced constant `2^(2i) mod N`, and for each pair `i < j` the
pre-reduced constant `2 * 2^(i+j) mod N`. -/
def squareSum (N nIn x : ℕ) : ℕ :=
  (∑ i in Finset.range nIn, bitv x i * (2 ^ (2 * i) % N)) +
    ∑ i in Finset.range nIn, ∑ j in Finset.Ico (i + 1) nIn,
      bitv x i * bitv x j * (2 * 2 ^ (i + j) % N)

/-- Accumulated constant of `ModularArithmetic.modular_general_multiply`
(src/general/arithmetic.py, lines 61-64): for each bit pair `(i, j)` the
pre-reduced constant `2^(i+j) mod N`. -/
def mulSum (N nA nB a b : ℕ) : ℕ :=
  ∑ i in Finset.range nA, ∑ j in Finset.range nB,
    bitv a i * bitv b j * (2 ^ (i + j) % N)

/-- Accumulated constant of `ModularArithmetic.modular_scalar_mult`
(src/general/arithmetic.py, lines 75-77): for each source bit `i` the
pre-reduced constant `scalar * 2^i mod N`. -/
def scalSum (N nIn scalar x : ℕ) : ℕ :=
  ∑ i in Finset.range nIn, bitv x i * (scalar * 2 ^ i % N)

/-- Accumulated constant of `ModularArithmetic.modular_sub`
(src/general/arithmetic.py, lines 92-94): for each source bit `i` the
pre-reduced constant `(N - 2^i) mod N` (computed in ℤ, as Python does). -/
def subSum (N nSrc x : ℕ) : ℕ :=
  ∑ i in Finset.range nSrc, bitv x i * ((((N : ℤ) - 2 ^ i) % (N : ℤ)).toNat)

/-- Basis-state semantics of `ModularArithmetic.modular_square`: the new
value of the output register of width `nOut`, given source value `src`. -/
def modular_square (N nIn nOut : ℕ) (inverse : Bool) (src out : ℕ) : ℕ :=
  padd (2 ^ nOut) out (sgn inverse * squareSum N nIn src)

/-- Basis-state semantics of `ModularArithmetic.modular_general_multiply`. -/
def modular_general_multiply (N nA nB nOut : ℕ) (inverse : Bool)
    (a b out : ℕ) : ℕ :=
  padd (2 ^ nOut) out (sgn inverse * mulSum N nA nB a b)

/-- Basis-state semantics of `ModularArithmetic.modular_scalar_mult`. -/
def modular_scalar_mult (N nIn nOut : ℕ) (scalar : ℕ) (inverse : Bool)
    (src out : ℕ) : ℕ :=
  padd (2 ^ nOut) out (sgn inverse * scalSum N nIn scalar src)

/-- Basis-state semantics of `ModularArithmetic.modular_sub`. -/
def modular_sub (N nSrc nTarget : ℕ) (inverse : Bool) (src target : ℕ) : ℕ :=
  padd (2 ^ nTarget) target (sgn inverse * subSum N nSrc src)

/-- Source/output register pair (`src`, `out`) transformed by
`modular_square`: the gates only target the output register, so the source
component is returned unchanged. -/
def modular_square_state (N nIn nOut : ℕ) (inverse : Bool)
    (s : ℕ × ℕ) : ℕ × ℕ :=
  (s.1, modular_square N nIn nOut inverse s.1 s.2)

/-! ### Point-addition composer (src/general/ecc.py, class QuantumECC)

All registers of the composer (the operand triple X1, Y1, Z1 and the eight
ancilla blocks T1..T8 sliced out of the flat ancilla register) have the
same width `n`; basis-state values are tracked in a record. -/

/-- Basis-state contents of the composer registers: the operand triple and
the eight n-bit ancilla blocks `T1..T8` of `src/general/ecc.py`. -/
structure AddState where
  x1 : ℕ
  y1 : ℕ
  z1 : ℕ
  t1 : ℕ
  t2 : ℕ
  t3 : ℕ
  t4 : ℕ
  t5 : ℕ
  t6 : ℕ
  t7 : ℕ
  t8 : ℕ
deriving DecidableEq, Repr

/-- `QuantumECC.calculate_H_R` (src/general/ecc.py, lines 8-29):
T1 = Z^2, T2 = U2 = x2*T1, T3 = Z^3 = Z*T1, T4 = S2 = y2*T3, then
H = U2 - X1 into T2 and R = S2 - Y1 into T4. -/
def calculate_H_R (N n x2 y2 : ℕ) (st : AddState) : AddState :=
  let t1 := modular_square N n n false st.z1 st.t1
  let t2 := modular_scalar_mult N n n x2 false t1 st.t2
  let t3 := modular_general_multiply N n n n false st.z1 t1 st.t3
  let t4 := modular_scalar_mult N n n y2 false t3 st.t4
  let t2 := modular_sub N n n false st.x1 t2
  let t4 := modular_sub N n n false st.y1 t4
  { st with t1 := t1, t2 := t2, t3 := t3, t4 := t4 }

/-- `QuantumECC.calculate_Z3_and_cleanup` (src/general/ecc.py, lines
31-47): uncompute T3 (Z^3) and T1 (Z^2) with inverse ops, then compute
Z3 = Z1 * H into T1. -/
def calculate_Z3_and_cleanup (N n : ℕ) (st : AddState) : AddState :=
  let t3 := modular_general_multiply N n n n true st.z1 st.t1 st.t3
  let t1 := modular_square N n n true st.z1 st.t1
  let t1 := modular_general_multiply N n n n false st.z1 st.t2 t1
  { st with t1 := t1, t3 := t3 }

/-- `QuantumECC.calculate_X3_Y3_and_final_cleanup` (src/general/ecc.py,
lines 49-101): compute H^2 (T3), V (T5), X3 (T6), Y3 (T7) with a temporary
product (T8), then uncompute every scratch value in reverse. -/
def calculate_X3_Y3_and_final_cleanup (N n x2 y2 : ℕ) (st : AddState) :
    AddState :=
  -- Step 1: Compute H^2 (into T3) and V = X1 * H^2 (into T5)
  let t3 := modular_square N n n false st.t2 st.t3
  let t5 := modular_general_multiply N n n n false st.x1 t3 st.t5
  -- Step 2: Compute X3 (into T6) = R^2 - H^3 - 2V
  let t6 := modular_square N n n false st.t4 st.t6
  let t6 := modular_general_multiply N n n n true st.t2 t3 t6
  let t6 := modular_sub N n n false t5 t6
  let t6 := modular_sub N n n false t5 t6
  -- Step 3: Compute Y3 (into T7); V becomes V - X3, tmp (T8) = Y1 * H
  let t5 := modular_sub N n n false t6 t5
  let t7 := modular_general_multiply N n n n false st.t4 t5 st.t7
  let t8 := modular_general_multiply N n n n false st.y1 st.t2 st.t8
  let t7 := modular_general_multiply N n n n true t8 t3 t7
  let t8 := modular_general_multiply N n n n true st.y1 st.t2 t8
  -- Step 4: Global cleanup
  let t5 := modular_sub N n n true t6 t5
  let t5 := modular_general_multiply N n n n true st.x1 t3 t5
  let t3 := modular_square N n n true st.t2 t3
  let t4 := modular_sub N n n true st.y1 st.t4
  let t2 := modular_sub N n n true st.x1 st.t2
  let t8 := modular_square N n n false st.z1 t8
  let t5 := modular_general_multiply N n n n false st.z1 t8 t5
  let t4 := modular_scalar_mult N n n y2 true t5 t4
  let t2 := modular_scalar_mult N n n x2 true t8 t2
  let t5 := modular_general_multiply N n n n true st.z1 t8 t5
  let t8 := modular_square N n n true st.z1 t8
  { st with t2 := t2, t3 := t3, t4 := t4, t5 := t5, t6 := t6, t7 := t7,
            t8 := t8 }

/-- The final register swap of `ScalarMultiplication.create_controlled_add_gate`
(src/general/ecc.py, lines 126-133): swap X1 with T6 (X3), Y1 with T7 (Y3)
and Z1 with T1 (Z3). -/
def swap_result (st : AddState) : AddState :=
  { st with x1 := st.t6, t6 := st.x1, y1 := st.t7, t7 := st.y1,
            z1 := st.t1, t1 := st.z1 }

/-- Body of the point-addition gate built by
`ScalarMultiplication.create_controlled_add_gate` (src/general/ecc.py,
lines 110-136): the three composer stages followed by the final swap. -/
def create_controlled_add (N n x2 y2 : ℕ) (st : AddState) : AddState :=
  swap_result
    (calculate_X3_Y3_and_final_cleanup N n x2 y2
      (calculate_Z3_and_cleanup N n
        (calculate_H_R N n x2 y2 st)))

/-! ### Classical elliptic-curve helpers

`Option (ℕ × ℕ)` models the ClassicalPoint data type: `none` is the
`(None, None)` point-at-infinity sentinel of the Python source. -/

/-- Modular inverse in the range `[0, p)`, the value that the Python call
`pow(a, -1, p)` returns when `a` is invertible mod `p` (and 0 when it is
not; the Python call raises there, and no claim depends on that case). -/
def modInv (a p : ℕ) : ℕ :=
  ((List.range p).find? (fun b => a * b % p == 1)).getD 0

/-- `ScalarMultiplication._classical_point_doubling`
(src/general/ecc.py, lines 138-148), curve coefficient `aC`. -/
def classical_point_doubling (aC p : ℕ) :
    Option (ℕ × ℕ) → Option (ℕ × ℕ)
  | none => none
  | some (x, y) =>
    if y = 0 then none
    else
      let numerator := (3 * x ^ 2 + aC) % p
      let denominator := (2 * y) % p
      let inv := modInv denominator p
      let lam := numerator * inv % p
      let x3 : ℕ := ((((lam : ℤ) ^ 2 - 2 * x) % (p : ℤ)).toNat)
      let y3 : ℕ := ((((lam : ℤ) * ((x : ℤ) - x3) - y) % (p : ℤ)).toNat)
      some (x3, y3)

/-- `ScalarMultiplication._classical_add` (src/general/ecc.py, lines
180-193): classical affine point addition used to validate the composer. -/
def classical_add (aC N : ℕ) (p1 p2 : Option (ℕ × ℕ)) : Option (ℕ × ℕ) :=
  match p1, p2 with
  | none, q => q
  | p, none => p
  | some (x1, y1), some (x2, y2) =>
    if x1 = x2 ∧ y1 = y2 then classical_point_doubling aC N (some (x1, y1))
    else
      let num : ℕ := ((((y2 : ℤ) - y1) % (N : ℤ)).toNat)
      let den : ℕ := ((((x2 : ℤ) - x1) % (N : ℤ)).toNat)
      let inv := modInv den N
      let lam := num * inv % N
      let x3 : ℕ := ((((lam : ℤ) ^ 2 - x1 - x2) % (N : ℤ)).toNat)
      let y3 : ℕ := ((((lam : ℤ) * ((x1 : ℤ) - x3) - y1) % (N : ℤ)).toNat)
      some (x3, y3)

/-- `ShorPostProcessor._point_double` (src/postprocessing.py, lines 41-51). -/
def pp_point_double (p aC : ℕ) : Option (ℕ × ℕ) → Option (ℕ × ℕ)
  | none => none
  | some (x1, y1) =>
    if y1 = 0 then none
    else
      let num : ℕ := (3 * x1 ^ 2 + aC) % p
      let den : ℕ := (2 * y1) % p
      let lam := num * modInv den p % p
      let x3 : ℕ := ((((lam : ℤ) ^ 2 - 2 * x1) % (p : ℤ)).toNat)
      let y3 : ℕ := ((((lam : ℤ) * ((x1 : ℤ) - x3) - y1) % (p : ℤ)).toNat)
      some (x3, y3)

/-- `ShorPostProcessor._point_add` (src/postprocessing.py, lines 25-39). -/
def pp_point_add (p aC : ℕ) (q1 q2 : Option (ℕ × ℕ)) : Option (ℕ × ℕ) :=
  match q1, q2 with
  | none, q => q
  | q, none => q
  | some (x1, y1), some (x2, y2) =>
    if x1 = x2 ∧ y1 ≠ y2 then none
    else if x1 = x2 ∧ y1 = y2 then pp_point_double p aC (some (x1, y1))
    else
      let num : ℕ := ((((y2 : ℤ) - y1) % (p : ℤ)).toNat)
      let den : ℕ := ((((x2 : ℤ) - x1) % (p : ℤ)).toNat)
      let lam := num * modInv den p % p
      let x3 : ℕ := ((((lam : ℤ) ^ 2 - x1 - x2) % (p : ℤ)).toNat)
      let y3 : ℕ := ((((lam : ℤ) * ((x1 : ℤ) - x3) - y1) % (p : ℤ)).toNat)
      some (x3, y3)

/-- The Python method `int.bit_length`, by fuel-bounded halving (structural
recursion so that concrete evaluation reduces in the kernel). -/
def bitLenAux : ℕ → ℕ → ℕ
  | 0, _ => 0
  | fuel + 1, n => if n = 0 then 0 else bitLenAux fuel (n / 2) + 1

/-- `k.bit_length()` as used by the double-and-add loops. -/
def bit_length (n : ℕ) : ℕ := bitLenAux n n

/-- `ShorPostProcessor._classical_point_mult` (src/postprocessing.py, lines
10-23): classical double-and-add over the bits of `k`. -/
def pp_point_mult (p aC k : ℕ) (point : Option (ℕ × ℕ)) :
    Option (ℕ × ℕ) :=
  if k = 0 then none
  else if k = 1 then point
  else
    ((List.range (bit_length k)).foldl
      (fun acc i =>
        ((if k.testBit i then pp_point_add p aC acc.1 acc.2 else acc.1),
          pp_point_double p aC acc.2))
      ((none : Option (ℕ × ℕ)), point)).1

/-! ### Scalar-multiplication loop controller
(src/general/ecc.py, class ScalarMultiplication) -/

/-- One controlled point-addition entry emitted by the loop: the selector
bit it is controlled on, and the classical constant point it adds. -/
structure CtrlAdd where
  ctrlIdx : ℕ
  constPt : Option (ℕ × ℕ)
deriving DecidableEq, Repr

/-- The loop body of `ScalarMultiplication.build_scalar_mult_circuit`
(src/general/ecc.py, lines 159-168): emit a controlled add gate for the
current constant point, then double the constant classically. -/
def buildGatesAux (aC p : ℕ) : ℕ → ℕ → Option (ℕ × ℕ) → List CtrlAdd
  | 0, _, _ => []
  | fuel + 1, i, q =>
    ⟨i, q⟩ :: buildGatesAux aC p fuel (i + 1) (classical_point_doubling aC p q)

/-- `ScalarMultiplication.build_scalar_mult_circuit` over an `m`-qubit
selector register: the list of controlled point-additions it appends. -/
def build_scalar_mult_circuit (aC p m : ℕ) (base : Option (ℕ × ℕ)) :
    List CtrlAdd :=
  buildGatesAux aC p m 0 base

/-- Basis-state semantics of one controlled add gate
(`create_controlled_add_gate(...).control(1)` applied with selector value
`k`): the addition body runs exactly when the selector bit is 1.  A `none`
constant point never arises from the claims treated here (the source would
raise while precomputing it). -/
def apply_ctrl_add (N n : ℕ) (g : CtrlAdd) (k : ℕ) (st : AddState) :
    AddState :=
  match g.constPt with
  | some (x2, y2) =>
    if Nat.testBit k g.ctrlIdx then create_controlled_add N n x2 y2 st else st
  | none => st

/-! ### Classical post-processing solver
(src/postprocessing.py and src/verify_qday.py, class ShorPostProcessor)

A measurement histogram is modelled after bit-string parsing: a list of
`((val_b, val_a), count)` entries, in the order Python iterates
`counts.items()`. -/

/-- Insert an entry into a list sorted by descending count, after every
entry of greater or equal count: folding this over a list reproduces
the stable Python `sorted(..., key=itemgetter(1), reverse=True)`. -/
def insertDescBy {α : Type} (x : α × ℕ) : List (α × ℕ) → List (α × ℕ)
  | [] => [x]
  | y :: ys => if y.2 < x.2 then x :: y :: ys else y :: insertDescBy x ys

/-- Stable sort by descending count (`sorted(...,
key=operator.itemgetter(1), reverse=True)`), used both for the raw
histogram and for the candidate vote table. -/
def sortDescBy {α : Type} (l : List (α × ℕ)) : List (α × ℕ) :=
  l.foldl (fun acc x => insertDescBy x acc) []

/-- Python dict lookup with default 0 (`votes.get(k, 0)`). -/
def dict_get (d : List (ℕ × ℕ)) (k : ℕ) : ℕ :=
  ((d.find? (fun q => decide (q.1 = k))).map (fun q => q.2)).getD 0

/-- Python dict update `votes[k] = votes.get(k, 0) + v`, preserving
insertion order: update in place if the key exists, else append. -/
def dict_add (d : List (ℕ × ℕ)) (k v : ℕ) : List (ℕ × ℕ) :=
  if d.any (fun q => decide (q.1 = k)) then
    d.map (fun q => if q.1 = k then (q.1, q.2 + v) else q)
  else d ++ [(k, v)]

/-- Candidate formation for one sampled `(val_b, val_a)` pair
(src/verify_qday.py, lines 116-129, identical algebra in
src/postprocessing.py, lines 77-92): skip when `val_a % r == 0`, skip when
`pow(val_a, -1, r)` raises (i.e. `val_a` not coprime with `r`), otherwise
the candidate is `val_b * val_a^-1 mod r`. -/
def candidate_of (r : ℕ) (ba : ℕ × ℕ) : Option ℕ :=
  if ba.2 % r = 0 then none
  else if Nat.gcd ba.2 r ≠ 1 then none
  else some (ba.1 * modInv (ba.2 % r) r % r)

/-- Vote accumulation of `solve_k`: iterate the histogram sorted by count
descending, and for each pair that yields a candidate add its count to the
vote total of that candidate (src/verify_qday.py, lines 109-129). -/
def k_votes (r : ℕ) (samples : List ((ℕ × ℕ) × ℕ)) : List (ℕ × ℕ) :=
  (sortDescBy samples).foldl
    (fun d s =>
      match candidate_of r s.1 with
      | some k => dict_add d k s.2
      | none => d)
    []

/-- The Python call `max(items, key=itemgetter(1))`: the first entry of maximal
count in iteration order (src/postprocessing.py, line 113). -/
def first_max : List (ℕ × ℕ) → ℕ × ℕ
  | [] => (0, 0)
  | x :: xs => xs.foldl (fun acc q => if acc.2 < q.2 then q else acc) x

/-- `ShorPostProcessor.solve_k` of src/verify_qday.py (lines 104-143):
accumulate votes, sort candidates by votes descending, verify each in turn
by classical scalar multiplication, return the first verified candidate,
and `none` when no candidate verifies. -/
def solve_k_verify (r p aC : ℕ) (samples : List ((ℕ × ℕ) × ℕ))
    (P Q : Option (ℕ × ℕ)) : Option ℕ :=
  (((sortDescBy (k_votes r samples)).find?
      (fun c => decide (pp_point_mult p aC c.1 P = Q))).map
    (fun c => c.1))

/-- `ShorPostProcessor.solve_k` of src/postprocessing.py (lines 53-123):
accumulate votes, pick only the single highest-vote candidate, verify it,
and return `none` when the vote table is empty or the leader fails
verification. -/
def solve_k_post (r p aC : ℕ) (samples : List ((ℕ × ℕ) × ℕ))
    (P Q : Option (ℕ × ℕ)) : Option ℕ :=
  let votes := k_votes r samples
  if votes.isEmpty then none
  else
    let best := (first_max votes).1
    if pp_point_mult p aC best P = Q then some best else none

/-- Claim-side reformulation of vote accumulation, for the relational claim
about `k_votes`: the weight a candidate `k` should receive is the summed
count of all histogram entries whose (corrected) candidate is `k`.  This is
compared with `dict_get (k_votes ...)` in the corresponding theorem. -/
def vote_weight (r : ℕ) (samples : List ((ℕ × ℕ) × ℕ)) (k : ℕ) : ℕ :=
  ((samples.filter (fun s => decide (candidate_of r s.1 = some k))).map
    (fun s => s.2)).sum

/-! ### Operation-list level

Each arithmetic primitive of `src/general/arithmetic.py` appends to the
circuit: the Fourier-transform gate on the output register, one
(multi-)controlled phase-addition gate per `cc_phase_add` call, and the
inverse Fourier transform on the output register.  The lists below record
these appends one for one, in source order. -/

/-- A qubit reference: the register it belongs to (registers are named by
naturals here) and its bit position inside that register. -/
structure QubitRef where
  reg : ℕ
  idx : ℕ
deriving DecidableEq, Repr

/-- One appended operation: a Fourier-transform gate on a whole register
(`inverse` distinguishing QFT from its inverse), or one phase-addition
gate `PhiAdd(val)` on a target register guarded by control qubits
(`cc_phase_add`: the gate is controlled on every listed qubit and its
rotation angles all scale with the signed constant `val`). -/
inductive COp where
  | qft (target : ℕ) (inverse : Bool)
  | cphase (ctrls : List QubitRef) (target : ℕ) (val : ℤ)
deriving DecidableEq, Repr

/-- The register an operation acts on. -/
def COp.targetReg : COp → ℕ
  | .qft t _ => t
  | .cphase _ t _ => t

/-- The registers an operation reads as controls. -/
def COp.ctrlRegList : COp → List ℕ
  | .qft _ _ => []
  | .cphase c _ _ => c.map (fun q => q.reg)

/-- Operation list appended by `ModularArithmetic.modular_square`
(src/general/arithmetic.py, lines 33-51): QFT on the output, then for each
source bit `i` a singly controlled phase add of `sign * (2^(2i) mod N)`
followed, for each `j` in `i+1 .. nIn-1`, by a doubly controlled phase add
of `sign * (2 * 2^(i+j) mod N)`, and finally the inverse QFT. -/
def modular_square_ops (N nIn nOut : ℕ) (src out : ℕ) (inverse : Bool) :
    List COp :=
  [COp.qft out false]
    ++ ((List.range nIn).flatMap (fun i =>
          COp.cphase [⟨src, i⟩] out
              (sgn inverse * ((2 ^ (2 * i) % N : ℕ) : ℤ))
            :: (List.range (nIn - (i + 1))).map (fun k =>
                COp.cphase [⟨src, i⟩, ⟨src, i + 1 + k⟩] out
                  (sgn inverse * ((2 * 2 ^ (i + (i + 1 + k)) % N : ℕ) : ℤ)))))
    ++ [COp.qft out true]

/-- Operation list appended by
`ModularArithmetic.modular_general_multiply`
(src/general/arithmetic.py, lines 53-66). -/
def modular_general_multiply_ops (N nA nB nOut : ℕ) (ra rb out : ℕ)
    (inverse : Bool) : List COp :=
  [COp.qft out false]
    ++ ((List.range nA).flatMap (fun i =>
          (List.range nB).map (fun j =>
            COp.cphase [⟨ra, i⟩, ⟨rb, j⟩] out
              (sgn inverse * ((2 ^ (i + j) % N : ℕ) : ℤ)))))
    ++ [COp.qft out true]

/-- Operation list appended by `ModularArithmetic.modular_scalar_mult`
(src/general/arithmetic.py, lines 68-79). -/
def modular_scalar_mult_ops (N nIn nOut : ℕ) (scalar : ℕ) (src out : ℕ)
    (inverse : Bool) : List COp :=
  [COp.qft out false]
    ++ ((List.range nIn).map (fun i =>
          COp.cphase [⟨src, i⟩] out
            (sgn inverse * ((scalar * 2 ^ i % N : ℕ) : ℤ))))
    ++ [COp.qft out true]

/-- Operation list appended by `ModularArithmetic.modular_sub`
(src/general/arithmetic.py, lines 81-96). -/
def modular_sub_ops (N nSrc nTarget : ℕ) (src target : ℕ)
    (inverse : Bool) : List COp :=
  [COp.qft target false]
    ++ ((List.range nSrc).map (fun i =>
          COp.cphase [⟨src, i⟩] target
            (sgn inverse * ((((N : ℤ) - 2 ^ i) % (N : ℤ))))))
    ++ [COp.qft target true]

/-- The adjoint of a single operation: a QFT becomes its inverse, a phase
addition has its angle (hence its constant) negated. -/
def negOp : COp → COp
  | .qft t b => .qft t (!b)
  | .cphase c t v => .cphase c t (-v)

/-- The adjoint of an operation list: every operation inverted, in reversed
order.  This is what the specification describes as the realization of the
inverse form. -/
def adjointOps (l : List COp) : List COp :=
  (l.map negOp).reverse

/-- Negate only the phase constants of a list, keeping order and keeping
the Fourier transforms as they are: this is what the source actually emits
for `inverse=True` (a sign flip of each logical constant in forward
order). -/
def negPhase : COp → COp
  | .qft t b => .qft t b
  | .cphase c t v => .cphase c t (-v)

/-! ### Helper lemmas -/

theorem two_pow_pos (n : ℕ) : 0 < 2 ^ n := pow_pos (by norm_num) n

/-- A phase-addition block always leaves the output register inside its
width: `padd` lands in `[0, 2^n)`. -/
theorem padd_lt (n v : ℕ) (s : ℤ) : padd (2 ^ n) v s < 2 ^ n := by
  unfold padd
  have hM : (0 : ℤ) < ((2 ^ n : ℕ) : ℤ) := by exact_mod_cast two_pow_pos n
  have h1 := Int.emod_nonneg ((v : ℤ) + s) (ne_of_gt hM)
  have h2 := Int.emod_lt_of_pos ((v : ℤ) + s) hM
  omega

/-- Adding a signed constant in the phase domain and then subtracting the
same constant restores the register exactly (mod-2^n addition is a group
action), for any register value inside its width. -/
theorem padd_cancel (n : ℕ) (v : ℕ) (s : ℤ) (hv : v < 2 ^ n) :
    padd (2 ^ n) (padd (2 ^ n) v s) (-s) = v := by
  unfold padd
  have hM : (0 : ℤ) < ((2 ^ n : ℕ) : ℤ) := by exact_mod_cast two_pow_pos n
  have h1 : (0 : ℤ) ≤ ((v : ℤ) + s) % ((2 ^ n : ℕ) : ℤ) :=
    Int.emod_nonneg _ (ne_of_gt hM)
  rw [Int.toNat_of_nonneg h1, Int.emod_add_emod, add_neg_cancel_right,
    Int.emod_eq_of_lt (by positivity) (by exact_mod_cast hv)]
  simp

end BreakEcc

namespace BreakEcc

/-! ### Claim theorems -/

/-- Claim C1: for p = 13, curve coefficient a = 0, the point-addition
composer applied to the projective operand P = (X=4, Y=8, Z=1) and the
classical constant point Q = (11, 5), on registers of an adequate width
(n = 6 bits, wide enough that no intermediate phase sum wraps), leaves the
operand registers holding (X3, Y3, Z3) = (41, 15, 7), whose affine
normalization (X3 * Z3^-2, Y3 * Z3^-3) mod 13 is (8, 3), the same result
as the classical affine point-addition helper on (4, 8) and (11, 5). -/
theorem C1_composer_example :
    create_controlled_add 13 6 11 5 ⟨4, 8, 1, 0, 0, 0, 0, 0, 0, 0, 0⟩
        = ⟨41, 15, 7, 1, 0, 0, 0, 0, 4, 8, 0⟩ ∧
      41 * modInv (7 ^ 2 % 13) 13 % 13 = 8 ∧
      15 * modInv (7 ^ 3 % 13) 13 % 13 = 3 ∧
      classical_add 0 13 (some (4, 8)) (some (11, 5)) = some (8, 3) := by
  exact ⟨by decide, by decide, by decide, by decide⟩

/-- Claim C3: for every bit-width pair and every source value `x`,
`modular_square` forward followed by `modular_square` with
`inverse = true` on a zero-initialized output register leaves the output
at zero and the source register unchanged. -/
theorem C3_square_roundtrip (N nIn nOut x : ℕ) :
    modular_square_state N nIn nOut true
        (modular_square_state N nIn nOut false (x, 0)) = (x, 0) := by
  unfold modular_square_state modular_square
  simp only [sgn, if_true, if_false, Bool.false_eq_true, one_mul,
    neg_one_mul]
  rw [padd_cancel nOut 0 _ (two_pow_pos nOut)]

/-- Claim C9: for p = 13 and source value x = 3, `modular_square` on a
zero-initialized output register of adequate width (at least 4 bits, so
the sum 9 does not wrap) yields an output congruent to 9 modulo 13; the
accumulated sum of pre-reduced per-term constants is itself congruent to
x^2 mod 13. -/
theorem C9_square_of_three (nOut : ℕ) (h : 4 ≤ nOut) :
    modular_square 13 2 nOut false 3 0 % 13 = 9 ∧
      squareSum 13 2 3 % 13 = 3 ^ 2 % 13 := by
  have hval : modular_square 13 2 nOut false 3 0 = 9 := by
    unfold modular_square
    have hS : squareSum 13 2 3 = 9 := by decide
    rw [hS]
    unfold padd sgn
    have h16 : (16 : ℕ) ≤ 2 ^ nOut := by
      calc (16 : ℕ) = 2 ^ 4 := by norm_num
        _ ≤ 2 ^ nOut := Nat.pow_le_pow_right (by norm_num) h
    have h9 : (9 : ℤ) < 2 ^ nOut := by
      exact_mod_cast (by omega : (9 : ℕ) < 2 ^ nOut)
    rw [if_neg (by simp), one_mul]
    norm_num
    rw [Int.emod_eq_of_lt (by norm_num) h9]
    rfl
  exact ⟨by rw [hval], by decide⟩

/-- Closed witness for C9 at the concrete width 4. -/
theorem C9_square_of_three_witness :
    4 ≤ 4 ∧ (modular_square 13 2 4 false 3 0 % 13 = 9 ∧
      squareSum 13 2 3 % 13 = 3 ^ 2 % 13) :=
  ⟨le_refl 4, C9_square_of_three 4 (le_refl 4)⟩

/-- Counterexample to claim C2 as stated: after one full point addition
(the three stages plus the final swap) on the worked example (p = 13,
n = 6, P = (4, 8, 1), constant point (11, 5)), the ancilla block T1 is
not all-zero: the swap moved the old operand value Z = 1 into it (and
likewise old X into T6 and old Y into T7). -/
theorem C2_swap_leaves_old_operands :
    (create_controlled_add 13 6 11 5 ⟨4, 8, 1, 0, 0, 0, 0, 0, 0, 0, 0⟩).t1
      ≠ 0 := by decide

/-- Claim C2 (amended): after one full point addition by the composer, for
every modulus, width, constant point and operand values, the five scratch
ancilla blocks T2, T3, T4, T5, T8 are exactly zero (the uncompute replay
is exact for mod-2^n phase addition), while the three ancilla blocks that
participate in the final swap hold the previous operand values (T1 = old
Z, T6 = old X, T7 = old Y) rather than zero; the operand registers hold
the new (X3, Y3, Z3) content. -/
theorem C2_ancilla_cleanup (N n x2 y2 x y z : ℕ) :
    ((create_controlled_add N n x2 y2 ⟨x, y, z, 0, 0, 0, 0, 0, 0, 0, 0⟩).t2,
      (create_controlled_add N n x2 y2 ⟨x, y, z, 0, 0, 0, 0, 0, 0, 0, 0⟩).t3,
      (create_controlled_add N n x2 y2 ⟨x, y, z, 0, 0, 0, 0, 0, 0, 0, 0⟩).t4,
      (create_controlled_add N n x2 y2 ⟨x, y, z, 0, 0, 0, 0, 0, 0, 0, 0⟩).t5,
      (create_controlled_add N n x2 y2 ⟨x, y, z, 0, 0, 0, 0, 0, 0, 0, 0⟩).t8,
      (create_controlled_add N n x2 y2 ⟨x, y, z, 0, 0, 0, 0, 0, 0, 0, 0⟩).t1,
      (create_controlled_add N n x2 y2 ⟨x, y, z, 0, 0, 0, 0, 0, 0, 0, 0⟩).t6,
      (create_controlled_add N n x2 y2 ⟨x, y, z, 0, 0, 0, 0, 0, 0, 0, 0⟩).t7)
      = (0, 0, 0, 0, 0, z, x, y) := by
  simp only [create_controlled_add, swap_result,
    calculate_X3_Y3_and_final_cleanup, calculate_Z3_and_cleanup,
    calculate_H_R, modular_square, modular_general_multiply,
    modular_scalar_mult, modular_sub, sgn]
  simp [padd_cancel, padd_lt, two_pow_pos, one_mul, neg_one_mul]

/-- Counterexample to claim C4 as stated: the inverse form of
`modular_square` is not the operation list of the forward form emitted in
reversed order with negated angles.  At N = 13, nIn = 2 (source register
0, output register 1, output width 4) the inverse form emits its three
phase additions in the same forward order, so it differs from the
reversed-order adjoint list. -/
theorem C4_inverse_not_reversed :
    modular_square_ops 13 2 4 0 1 true
      ≠ adjointOps (modular_square_ops 13 2 4 0 1 false) := by decide

/-- Claim C4 (amended): for every arithmetic primitive (square, general
multiply, scalar multiply, subtract), the inverse form is the forward
operation list emitted in the same order with each phase constant negated
(exactly a sign flip of the logical constant, the Fourier transforms
unchanged); since the phase additions between the transforms commute, this
still acts as the exact inverse on basis states: forward followed by
inverse restores any output register value. -/
theorem C4_inverse_is_sign_flip :
    (∀ N nIn nOut src out, modular_square_ops N nIn nOut src out true
        = (modular_square_ops N nIn nOut src out false).map negPhase) ∧
      (∀ N nA nB nOut ra rb out,
        modular_general_multiply_ops N nA nB nOut ra rb out true
          = (modular_general_multiply_ops N nA nB nOut ra rb out false).map
              negPhase) ∧
      (∀ N nIn nOut scalar src out,
        modular_scalar_mult_ops N nIn nOut scalar src out true
          = (modular_scalar_mult_ops N nIn nOut scalar src out false).map
              negPhase) ∧
      (∀ N nSrc nTarget src target,
        modular_sub_ops N nSrc nTarget src target true
          = (modular_sub_ops N nSrc nTarget src target false).map negPhase) ∧
      (∀ N nIn nOut x out, modular_square N nIn nOut true x
          (modular_square N nIn nOut false x (out % 2 ^ nOut))
        = out % 2 ^ nOut) ∧
      (∀ N nA nB nOut a b out, modular_general_multiply N nA nB nOut true a b
          (modular_general_multiply N nA nB nOut false a b (out % 2 ^ nOut))
        = out % 2 ^ nOut) ∧
      (∀ N nIn nOut scalar x out, modular_scalar_mult N nIn nOut scalar true x
          (modular_scalar_mult N nIn nOut scalar false x (out % 2 ^ nOut))
        = out % 2 ^ nOut) ∧
      (∀ N nSrc nTarget x out, modular_sub N nSrc nTarget true x
          (modular_sub N nSrc nTarget false x (out % 2 ^ nTarget))
        = out % 2 ^ nTarget) := by
  refine ⟨?_, ?_, ?_, ?_, ?_, ?_, ?_, ?_⟩
  · intro N nIn nOut src out
    simp [modular_square_ops, sgn, negPhase, List.map_append,
      List.map_flatMap, List.map_cons, List.map_map, one_mul, neg_one_mul,
      Function.comp, Function.comp_def]
  · intro N nA nB nOut ra rb out
    simp [modular_general_multiply_ops, sgn, negPhase, List.map_append,
      List.map_flatMap, List.map_map, one_mul, neg_one_mul, Function.comp,
      Function.comp_def]
  · intro N nIn nOut scalar src out
    simp [modular_scalar_mult_ops, sgn, negPhase, List.map_append, one_mul,
      neg_one_mul, Function.comp]
  · intro N nSrc nTarget src target
    simp [modular_sub_ops, sgn, negPhase, List.map_append, one_mul,
      neg_one_mul, Function.comp]
  · intro N nIn nOut x out
    unfold modular_square
    simp only [sgn, if_true, if_false, Bool.false_eq_true, one_mul,
      neg_one_mul]
    exact padd_cancel nOut _ _ (Nat.mod_lt out (two_pow_pos nOut))
  · intro N nA nB nOut a b out
    unfold modular_general_multiply
    simp only [sgn, if_true, if_false, Bool.false_eq_true, one_mul,
      neg_one_mul]
    exact padd_cancel nOut _ _ (Nat.mod_lt out (two_pow_pos nOut))
  · intro N nIn nOut scalar x out
    unfold modular_scalar_mult
    simp only [sgn, if_true, if_false, Bool.false_eq_true, one_mul,
      neg_one_mul]
    exact padd_cancel nOut _ _ (Nat.mod_lt out (two_pow_pos nOut))
  · intro N nSrc nTarget x out
    unfold modular_sub
    simp only [sgn, if_true, if_false, Bool.false_eq_true, one_mul,
      neg_one_mul]
    exact padd_cancel nTarget _ _ (Nat.mod_lt out (two_pow_pos nTarget))

/-- Counterexample to claim C8 as stated: with p = 13 and a source value
x = 3 (true sum 9, needing 4 bits), a 2-bit output register is too small,
yet synthesis does not detect this or reject the build: the complete
operation list (5 operations) is still produced, and the resulting output
value 1 has aliased (phase-wrapped) away from 9 = 3^2 mod 13. -/
theorem C8_undersized_build_not_rejected :
    (modular_square_ops 13 2 2 0 1 false).length = 5 ∧
      modular_square 13 2 2 false 3 0 = 1 ∧ 1 % 13 ≠ 3 ^ 2 % 13 := by
  exact ⟨by decide, by decide, by decide⟩

/-- Claim C8 (amended): there is no construction-time width check at all
(no `SizingError` exists anywhere in the source): synthesis always
produces a complete circuit, for every width, and an insufficient output
width silently phase-wraps the computed value at evaluation instead of
failing the build. -/
theorem C8_no_sizing_error (nIn : ℕ) :
    (∀ N nOut src out inverse,
        2 ≤ (modular_square_ops N nIn nOut src out inverse).length) ∧
      modular_square 13 2 2 false 3 0 = 1 ∧ (1 : ℕ) % 13 ≠ 9 % 13 := by
  refine ⟨?_, by decide, by decide⟩
  intro N nOut src out inverse
  simp [modular_square_ops]

/-- The scalar-multiplication loop body indexed: entry `j` of the emitted
gate list carries control index `i0 + j` and the constant point obtained
from the running point by `j` classical doublings. -/
theorem buildGatesAux_get (aC p : ℕ) :
    ∀ (fuel i0 j : ℕ) (q : Option (ℕ × ℕ)), j < fuel →
      (buildGatesAux aC p fuel i0 q)[j]?
        = some ⟨i0 + j, (classical_point_doubling aC p)^[j] q⟩ := by
  intro fuel
  induction fuel with
  | zero => intro i0 j q h; omega
  | succ m ih =>
    intro i0 j q h
    cases j with
    | zero => simp [buildGatesAux]
    | succ k =>
      have hk : k < m := by omega
      simp only [buildGatesAux, List.getElem?_cons_succ]
      rw [ih (i0 + 1) k (classical_point_doubling aC p q) hk]
      have harith : i0 + 1 + k = i0 + (k + 1) := by omega
      rw [harith, Function.iterate_succ_apply]

/-- Claim C5: in the scalar-multiplication loop over an m-qubit selector
register, the controlled addition attached to selector bit `i` (for every
`i < m`) uses the classical constant point obtained by `i` applications of
exact classical point doubling to the base point (2^i times the base
point), and that addition is the 1-control variant of the generic
point-addition gate: it applies the full addition body exactly when
selector bit `i` is 1 and is the identity otherwise. -/
theorem C5_loop_controlled_additions (N n aC p m : ℕ)
    (base : Option (ℕ × ℕ)) (i : ℕ) (h : i < m) :
    (build_scalar_mult_circuit aC p m base)[i]?
        = some ⟨i, (classical_point_doubling aC p)^[i] base⟩ ∧
      ∀ x2 y2 k st, apply_ctrl_add N n ⟨i, some (x2, y2)⟩ k st
          = if Nat.testBit k i then create_controlled_add N n x2 y2 st
            else st := by
  constructor
  · have hg := buildGatesAux_get aC p m 0 i base h
    simpa [build_scalar_mult_circuit] using hg
  · intro x2 y2 k st
    rfl

/-- Closed witness for C5: the second gate (selector bit 1) of a 2-bit
loop over base point (11, 5) on the p = 13 curve. -/
theorem C5_loop_controlled_additions_witness :
    1 < 2 ∧
      ((build_scalar_mult_circuit 0 13 2 (some (11, 5)))[1]?
          = some ⟨1, (classical_point_doubling 0 13)^[1] (some (11, 5))⟩ ∧
        ∀ x2 y2 k st, apply_ctrl_add 13 4 ⟨1, some (x2, y2)⟩ k st
            = if Nat.testBit k 1 then create_controlled_add 13 4 x2 y2 st
              else st) :=
  ⟨by norm_num,
    C5_loop_controlled_additions 13 4 0 13 2 (some (11, 5)) 1 (by norm_num)⟩

/-- Claim C10: every arithmetic primitive applies its Fourier transforms
and phase rotations only to the output register, and uses the source
register(s) solely as controls, in both the forward and the inverse form;
on computational-basis states the source registers are therefore
unchanged. -/
theorem C10_primitives_target_only_output :
    (∀ N nIn nOut src out inverse op,
        op ∈ modular_square_ops N nIn nOut src out inverse →
          op.targetReg = out ∧ ∀ r ∈ op.ctrlRegList, r = src) ∧
      (∀ N nA nB nOut ra rb out inverse op,
        op ∈ modular_general_multiply_ops N nA nB nOut ra rb out inverse →
          op.targetReg = out ∧ ∀ r ∈ op.ctrlRegList, r = ra ∨ r = rb) ∧
      (∀ N nIn nOut scalar src out inverse op,
        op ∈ modular_scalar_mult_ops N nIn nOut scalar src out inverse →
          op.targetReg = out ∧ ∀ r ∈ op.ctrlRegList, r = src) ∧
      (∀ N nSrc nTarget src target inverse op,
        op ∈ modular_sub_ops N nSrc nTarget src target inverse →
          op.targetReg = target ∧ ∀ r ∈ op.ctrlRegList, r = src) := by
  refine ⟨?_, ?_, ?_, ?_⟩
  · intro N nIn nOut src out inverse op hop
    simp only [modular_square_ops, List.mem_append, List.mem_singleton,
      List.mem_flatMap, List.mem_cons, List.mem_map, List.mem_range,
      List.not_mem_nil, or_false] at hop
    rcases hop with (hop | ⟨i, _, (hop | ⟨k, _, hop⟩)⟩) | hop <;> subst hop <;>
      simp [COp.targetReg, COp.ctrlRegList]
  · intro N nA nB nOut ra rb out inverse op hop
    simp only [modular_general_multiply_ops, List.mem_append,
      List.mem_singleton, List.mem_flatMap, List.mem_map,
      List.mem_range, List.not_mem_nil, or_false] at hop
    rcases hop with (hop | ⟨i, _, ⟨j, _, hop⟩⟩) | hop <;> subst hop <;>
      simp [COp.targetReg, COp.ctrlRegList]
  · intro N nIn nOut scalar src out inverse op hop
    simp only [modular_scalar_mult_ops, List.mem_append, List.mem_singleton,
      List.mem_map, List.mem_range, List.not_mem_nil, or_false] at hop
    rcases hop with (hop | ⟨i, _, hop⟩) | hop <;> subst hop <;>
      simp [COp.targetReg, COp.ctrlRegList]
  · intro N nSrc nTarget src target inverse op hop
    simp only [modular_sub_ops, List.mem_append, List.mem_singleton,
      List.mem_map, List.mem_range, List.not_mem_nil, or_false] at hop
    rcases hop with (hop | ⟨i, _, hop⟩) | hop <;> subst hop <;>
      simp [COp.targetReg, COp.ctrlRegList]

/-- Closed witness for C10: a concrete operation of a concrete square
operation list targets the output register 1 with controls only on the
source register 0. -/
theorem C10_primitives_target_only_output_witness :
    (COp.qft 1 false) ∈ modular_square_ops 13 2 2 0 1 false ∧
      ((COp.qft 1 false).targetReg = 1 ∧
        ∀ r ∈ (COp.qft 1 false).ctrlRegList, r = 0) :=
  ⟨by decide,
    C10_primitives_target_only_output.1 13 2 2 0 1 false (COp.qft 1 false)
      (by decide)⟩

/-! ### Dictionary and permutation lemmas for the solver -/

theorem dict_get_cons (p : ℕ × ℕ) (tl : List (ℕ × ℕ)) (k : ℕ) :
    dict_get (p :: tl) k = if p.1 = k then p.2 else dict_get tl k := by
  by_cases h : p.1 = k
  · rw [dict_get, List.find?_cons_of_pos _ (by simpa using h), if_pos h]
    rfl
  · rw [dict_get, List.find?_cons_of_neg _ (by simpa using h), if_neg h]
    rfl

theorem dict_get_map_ne (k v k0 : ℕ) (h : k0 ≠ k) :
    ∀ d : List (ℕ × ℕ),
      dict_get (d.map (fun q => if q.1 = k then (q.1, q.2 + v) else q)) k0
        = dict_get d k0
  | [] => rfl
  | p :: tl => by
    by_cases hp : p.1 = k
    · have hp0 : ¬ p.1 = k0 := fun hh => h (by rw [← hh, hp])
      have hk0 : ¬ k = k0 := fun hh => h hh.symm
      simp [dict_get_cons, hp, hp0, hk0, dict_get_map_ne k v k0 h tl]
    · simp [dict_get_cons, hp, dict_get_map_ne k v k0 h tl]

theorem dict_get_map_self (k v : ℕ) :
    ∀ d : List (ℕ × ℕ),
      dict_get (d.map (fun q => if q.1 = k then (q.1, q.2 + v) else q)) k
        = dict_get d k + if d.any (fun q => decide (q.1 = k)) then v else 0
  | [] => rfl
  | p :: tl => by
    by_cases hp : p.1 = k
    · simp [dict_get_cons, hp]
    · have hp2 : decide (p.1 = k) = false := by simp [hp]
      simp only [List.map_cons, List.any_cons, hp2, Bool.false_or]
      simp [dict_get_cons, hp, dict_get_map_self k v tl]

theorem dict_get_append_single (k v k0 : ℕ) :
    ∀ d : List (ℕ × ℕ),
      dict_get (d ++ [(k, v)]) k0
        = if d.any (fun q => decide (q.1 = k0)) then dict_get d k0
          else if k = k0 then v else 0
  | [] => by by_cases hkk : k = k0 <;> simp [dict_get, dict_get_cons, hkk]
  | p :: tl => by
    by_cases hp : p.1 = k0
    · simp [dict_get_cons, hp]
    · have hp2 : decide (p.1 = k0) = false := by simp [hp]
      simp only [List.cons_append, List.any_cons, hp2, Bool.false_or]
      simp [dict_get_cons, hp, dict_get_append_single k v k0 tl]

theorem dict_get_eq_zero_of_not_any (k0 : ℕ) :
    ∀ d : List (ℕ × ℕ),
      d.any (fun q => decide (q.1 = k0)) = false → dict_get d k0 = 0
  | [] => fun _ => rfl
  | p :: tl => fun h => by
    simp only [List.any_cons, Bool.or_eq_false_iff] at h
    have hp : ¬ p.1 = k0 := by simpa using h.1
    rw [dict_get_cons, if_neg hp]
    exact dict_get_eq_zero_of_not_any k0 tl h.2

/-- Python dict update `votes[k] = votes.get(k, 0) + v` adds `v` to key
`k` and leaves every other key unchanged. -/
theorem dict_get_dict_add (d : List (ℕ × ℕ)) (k v k0 : ℕ) :
    dict_get (dict_add d k v) k0
      = dict_get d k0 + if k0 = k then v else 0 := by
  by_cases hmem : d.any (fun q => decide (q.1 = k)) = true
  · rw [dict_add, if_pos hmem]
    by_cases hk : k0 = k
    · subst hk
      rw [dict_get_map_self k0 v d, if_pos hmem, if_pos rfl]
    · rw [dict_get_map_ne k v k0 hk d, if_neg hk, Nat.add_zero]
  · have hmem2 : d.any (fun q => decide (q.1 = k)) = false := by
      simp only [Bool.not_eq_true] at hmem
      exact hmem
    rw [dict_add, if_neg hmem, dict_get_append_single k v k0 d]
    by_cases hk : k0 = k
    · subst hk
      rw [if_neg (by rw [hmem2]; exact Bool.false_ne_true), if_pos rfl,
        dict_get_eq_zero_of_not_any k0 d hmem2, Nat.zero_add]
    · rw [if_neg hk, Nat.add_zero]
      by_cases hany : d.any (fun q => decide (q.1 = k0)) = true
      · rw [if_pos hany]
      · have hany2 : d.any (fun q => decide (q.1 = k0)) = false := by
          simp only [Bool.not_eq_true] at hany
          exact hany
        rw [if_neg hany, if_neg (fun hh => hk hh.symm),
          dict_get_eq_zero_of_not_any k0 d hany2]

/-- Folding the vote-accumulation step over a sample list adds, for each
candidate, exactly the summed counts of samples producing that
candidate. -/
theorem votes_foldl (r k : ℕ) :
    ∀ (samples : List ((ℕ × ℕ) × ℕ)) (d : List (ℕ × ℕ)),
      dict_get (samples.foldl (fun d s =>
          match candidate_of r s.1 with
          | some k1 => dict_add d k1 s.2
          | none => d) d) k
        = dict_get d k + vote_weight r samples k
  | [], d => by simp [vote_weight]
  | s :: tl, d => by
    rw [List.foldl_cons]
    cases hc : candidate_of r s.1 with
    | none =>
      simp only [hc]
      rw [votes_foldl r k tl d]
      simp [vote_weight, List.filter_cons, hc]
    | some k1 =>
      simp only [hc]
      rw [votes_foldl r k tl (dict_add d k1 s.2), dict_get_dict_add]
      by_cases hkk : k1 = k
      · subst hkk
        simp [vote_weight, List.filter_cons, hc]
        omega
      · have hkk2 : ¬ k = k1 := fun hh => hkk hh.symm
        simp [vote_weight, List.filter_cons, hc, hkk, hkk2]

theorem insertDescBy_perm {α : Type} (x : α × ℕ) :
    ∀ l : List (α × ℕ), (insertDescBy x l).Perm (x :: l)
  | [] => List.Perm.refl _
  | y :: ys => by
    rw [insertDescBy]
    by_cases h : y.2 < x.2
    · rw [if_pos h]
    · rw [if_neg h]
      exact (List.Perm.cons y (insertDescBy_perm x ys)).trans
        (List.Perm.swap x y ys)

theorem sortDescBy_perm_aux {α : Type} :
    ∀ (l acc : List (α × ℕ)),
      (l.foldl (fun acc x => insertDescBy x acc) acc).Perm (acc ++ l)
  | [], acc => by simp
  | x :: xs, acc => by
    rw [List.foldl_cons]
    refine (sortDescBy_perm_aux xs (insertDescBy x acc)).trans ?_
    refine (List.Perm.append_right xs (insertDescBy_perm x acc)).trans ?_
    exact List.perm_middle.symm

/-- The stable descending sort is a permutation of its input. -/
theorem sortDescBy_perm {α : Type} (l : List (α × ℕ)) :
    (sortDescBy l).Perm l := by
  have h := sortDescBy_perm_aux l []
  simpa [sortDescBy] using h

/-- The total weight of a candidate does not depend on the sample order. -/
theorem vote_weight_perm (r k : ℕ) {s1 s2 : List ((ℕ × ℕ) × ℕ)}
    (h : s1.Perm s2) : vote_weight r s1 k = vote_weight r s2 k :=
  List.Perm.sum_eq (List.Perm.map _ (List.Perm.filter _ h))

/-- Counterexample to claim C6 as stated: the solver gates candidate
formation on the invertibility of `a`, not of `b`, and computes
`b * a^-1 mod r`, not `-a * b^-1 mod r`.  First input: the pair with
b = 0 (not invertible mod 7) and a = 1 still yields candidate 0 with
weight 1, although the claim requires it skipped.  Second input: for
(a, b) = (3, 2) with r = 7 the value claimed is -3 * 2^-1 = 2 mod 7, but
the solver accumulates candidate 3 = 2 * 3^-1 mod 7. -/
theorem C6_candidate_algebra_counterexample :
    k_votes 7 [((0, 1), 1)] = [(0, 1)] ∧ Nat.gcd 0 7 ≠ 1 ∧
      k_votes 7 [((2, 3), 1)] = [(3, 1)] ∧
      (7 - 3) * modInv 2 7 % 7 = 2 := by
  exact ⟨by decide, by decide, by decide, by decide⟩

/-- Claim C6 (amended): for every sampled pair (a, b) with count c, the
solver forms a candidate exactly when `a % r` is nonzero and `a` is
coprime with `r` (the invertibility gate is on `a`, not `b`); the
candidate value is `b * a^-1 mod r` (not `-a * b^-1`), and vote weight c
is accumulated under that candidate: for every candidate `k`, its
accumulated total equals the summed counts of the samples whose candidate
is `k`; all other pairs contribute nothing. -/
theorem C6_vote_accumulation (r : ℕ) (samples : List ((ℕ × ℕ) × ℕ))
    (k : ℕ) :
    dict_get (k_votes r samples) k = vote_weight r samples k := by
  unfold k_votes
  rw [votes_foldl]
  rw [show dict_get [] k = 0 from rfl, Nat.zero_add]
  exact vote_weight_perm r k (sortDescBy_perm samples)

/-- Counterexample to claim C7 as stated: p = 13, curve order r = 7,
P = (11, 5), Q = (11, 8) = 6P.  The histogram gives weight 5 to candidate
3 (which fails verification) and weight 1 to candidate 6 (which
verifies), yet the `src/postprocessing.py` solver verifies only the
weighted leader and returns failure instead of continuing down to the
verifying candidate 6. -/
theorem C7_leader_only_verification :
    solve_k_post 7 13 0 [((3, 1), 5), ((6, 1), 1)] (some (11, 5))
        (some (11, 8)) = none ∧
      pp_point_mult 13 0 6 (some (11, 5)) = some (11, 8) := by
  exact ⟨by decide, by decide⟩

/-- Claim C7 (amended): the two solver variants differ.  The
`src/verify_qday.py` solver sorts candidates by weight descending,
verifies each in turn by classical scalar multiplication, continues past
the failing weighted leader, returns the verifying lower-weight candidate,
and any candidate it returns verifies; it reports failure as an explicit
`none` result.  The `src/postprocessing.py` solver instead verifies only
the weighted leader and reports failure when that leader fails, even when
a lower-weight candidate verifies. -/
theorem C7_two_solver_variants :
    solve_k_verify 7 13 0 [((3, 1), 5), ((6, 1), 1)] (some (11, 5))
        (some (11, 8)) = some 6 ∧
      solve_k_post 7 13 0 [((3, 1), 5), ((6, 1), 1)] (some (11, 5))
          (some (11, 8)) = none ∧
      ∀ r p aC samples P Q kk,
        solve_k_verify r p aC samples P Q = some kk →
          pp_point_mult p aC kk P = Q := by
  refine ⟨by decide, by decide, ?_⟩
  intro r p aC samples P Q kk h
  unfold solve_k_verify at h
  cases hf : List.find? (fun c => decide (pp_point_mult p aC c.1 P = Q))
      (sortDescBy (k_votes r samples)) with
  | none => rw [hf] at h; simp at h
  | some c =>
    rw [hf] at h
    simp at h
    have hc := List.find?_some hf
    have hcq := of_decide_eq_true hc
    rw [← h]
    exact hcq

/-- Closed witness for the universal part of the amended C7: the returned
candidate 6 indeed verifies. -/
theorem C7_two_solver_variants_witness :
    pp_point_mult 13 0 6 (some (11, 5)) = some (11, 8) :=
  C7_two_solver_variants.2.2 7 13 0 [((3, 1), 5), ((6, 1), 1)]
    (some (11, 5)) (some (11, 8)) 6 (by decide)

end BreakEcc

